/-
Verification of the pyBPL stochastic-geometry core: the B-spline engine
(`pybpl/splines.py`) and the relation / attachment subsystem
(`pybpl/relation.py`).

Numeric model: torch float tensors are embedded as rational numbers (ℚ);
tensors become lists.  Division in ℚ is total (`x / 0 = 0`), so the one
place where the Python code can divide by a zero row sum is additionally
modelled with an IEEE-aware division (`Option ℚ`, where `none` stands for
a non-finite float: NaN or ±∞).  Log-probabilities, which involve the
transcendental Normal density and CDF, are modelled over ℝ with codomain
`Option ℝ`, where `none` stands for the `-inf` sentinel the code uses.
-/
import Mathlib

namespace PyBPL

/-! ## splines.py -/

/-- Entrywise body of `vectorized_bspline_coeff(vi, vs)`.  The Python code
initializes `C` to zeros and then overwrites the entries selected by four
masks `sel1`..`sel4` in order, so a later mask takes precedence; the scalar
translation therefore tests the masks in reverse order. -/
def bspline_coeff (vi vs : ℚ) : ℚ :=
  if vi + 3 ≤ vs ∧ vs < vi + 4 then (1 - (vs - vi - 3))^3 / 6
  else if vi + 2 ≤ vs ∧ vs < vi + 3 then
    (3*(vs - vi - 2)^3 - 6*(vs - vi - 2)^2 + 4) / 6
  else if vi + 1 ≤ vs ∧ vs < vi + 2 then
    (-3*(vs - vi - 1)^3 + 3*(vs - vi - 1)^2 + 3*(vs - vi - 1) + 1) / 6
  else if vi ≤ vs ∧ vs < vi + 1 then (vs - vi)^3 / 6
  else 0

/-- `vectorized_bspline_coeff(vi, vs)` on equal-shaped matrices: the mask
assignments act entrywise, so the matrix result is the entrywise map. -/
def vectorized_bspline_coeff (vi vs : List (List ℚ)) : List (List ℚ) :=
  List.zipWith (List.zipWith bspline_coeff) vi vs

/-- The spec's description of the Basis Coefficient Engine: `d = s - i`;
zero outside `[0,4)`; on each of the four half-open unit sub-ranges the
standard uniform cubic B-spline piecewise cubic polynomial in the local
offset, scaled by `1/6`.  Used to compare against `bspline_coeff`. -/
def bspline_basis_spec (i s : ℚ) : ℚ :=
  if 0 ≤ s - i ∧ s - i < 1 then (s - i)^3 / 6
  else if 1 ≤ s - i ∧ s - i < 2 then
    (-3*((s - i) - 1)^3 + 3*((s - i) - 1)^2 + 3*((s - i) - 1) + 1) / 6
  else if 2 ≤ s - i ∧ s - i < 3 then
    (3*((s - i) - 2)^3 - 6*((s - i) - 2)^2 + 4) / 6
  else if 3 ≤ s - i ∧ s - i < 4 then (1 - ((s - i) - 3))^3 / 6
  else 0

/-- `bspline_gen_s(nland, neval)`: returns `(s, lb, ub)` with `lb = 2`,
`ub = nland + 1`; for `neval == 1` the single-element vector `[lb]`,
otherwise `torch.linspace(lb, ub, neval)`. -/
def bspline_gen_s (nland neval : ℕ) : List ℚ × ℚ × ℚ :=
  let lb : ℚ := 2
  let ub : ℚ := (nland : ℚ) + 1
  if neval = 1 then ([lb], lb, ub)
  else ((List.range neval).map
          (fun k : ℕ => lb + (k : ℚ) * (ub - lb) / ((neval : ℚ) - 1)),
        lb, ub)

/-- One row of the raw coefficient matrix `A` in `bspline_eval` /
`bspline_fit`: the basis coefficients at parameter `v` against landmark
indices `0..nland-1` (the broadcast of `s` against `torch.arange(nland)`). -/
def bspline_A_row (v : ℚ) (nland : ℕ) : List ℚ :=
  (List.range nland).map (fun i : ℕ => bspline_coeff (i : ℚ) v)

/-- One row of `Cof = A / torch.sum(A, dim=1, keepdim=True)`, with ℚ's
total division (`x / 0 = 0`).  The IEEE behaviour of the zero-row-sum case
is modelled separately by `bspline_cof_row_ieee`. -/
def bspline_cof_row (v : ℚ) (nland : ℕ) : List ℚ :=
  (bspline_A_row v nland).map (fun a => a / (bspline_A_row v nland).sum)

/-- Row of the trajectory `X = Cof @ Y`: the dot product of a coefficient
row with each coordinate column of the control-point matrix. -/
def bspline_X_row (cof : List ℚ) (Y : List (ℚ × ℚ)) : ℚ × ℚ :=
  ((List.zipWith (fun c y => c * Prod.fst y) cof Y).sum,
   (List.zipWith (fun c y => c * Prod.snd y) cof Y).sum)

/-- `bspline_eval(s, Y)`: returns the trajectory `X` (one 2-D point per
parameter value) and the normalized coefficient matrix `Cof`. -/
def bspline_eval (s : List ℚ) (Y : List (ℚ × ℚ)) :
    List (ℚ × ℚ) × List (List ℚ) :=
  let nland := Y.length
  let Cof := s.map (fun v => bspline_cof_row v nland)
  (Cof.map (fun row => bspline_X_row row Y), Cof)

/-! IEEE-aware model of the unguarded normalization `A / torch.sum(A)`:
`none` stands for a non-finite float (NaN from `0/0`, ±∞ from `x/0`). -/

/-- Float division as the torch kernel performs it: a zero denominator
produces a non-finite value (NaN or ±∞), modelled as `none`. -/
def qdiv_ieee (a b : ℚ) : Option ℚ :=
  if b = 0 then none else some (a / b)

/-- The `Cof` row of `bspline_eval` under IEEE float semantics. -/
def bspline_cof_row_ieee (v : ℚ) (nland : ℕ) : List (Option ℚ) :=
  (bspline_A_row v nland).map (fun a => qdiv_ieee a (bspline_A_row v nland).sum)

/-- Non-finite-propagating multiplication of a coefficient entry with a
control-point coordinate (NaN propagates through `*`). -/
def mul_ieee (c : Option ℚ) (y : ℚ) : Option ℚ :=
  match c with
  | none => none
  | some a => some (a * y)

/-- Non-finite-propagating addition (NaN propagates through `+`). -/
def add_ieee (a b : Option ℚ) : Option ℚ :=
  match a, b with
  | some x, some y => some (x + y)
  | _, _ => none

/-- One trajectory row `Cof_row @ Y` under IEEE float semantics. -/
def bspline_X_row_ieee (cof : List (Option ℚ)) (Y : List (ℚ × ℚ)) :
    Option ℚ × Option ℚ :=
  ((List.zipWith (fun c y => mul_ieee c (Prod.fst y)) cof Y).foldl add_ieee (some 0),
   (List.zipWith (fun c y => mul_ieee c (Prod.snd y)) cof Y).foldl add_ieee (some 0))

/-- Modelled from the spec: `dist_along_traj` (from `pybpl/util/stroke.py`,
not under `src/`) — "measure its total arc length (sum of consecutive
point-to-point Euclidean distances)". -/
noncomputable def dist_along_traj (X : List (ℚ × ℚ)) : ℝ :=
  ((X.zip X.tail).map (fun pq =>
    Real.sqrt (((pq.1.1 - pq.2.1 : ℚ) : ℝ)^2 + ((pq.1.2 - pq.2.2 : ℚ) : ℝ)^2))).sum

/-- Modelled from the spec: the fields of `defaultps()` (from
`pybpl/parameters.py`, not under `src/`) that `get_stk_from_bspline` reads:
"global bounds `spline_min_neval`, `spline_max_neval`, `spline_grain` used
by Adaptive Parameterization". -/
structure Params where
  spline_min_neval : ℕ
  spline_max_neval : ℕ
  spline_grain : ℚ

/-- The adaptive sample count of `get_stk_from_bspline` when `neval` is
`None`: `math.ceil(dist / spl_grain)`, then `max` with the minimum and
`min` with the maximum. -/
noncomputable def adaptive_neval (params : Params) (Y : List (ℚ × ℚ)) : ℕ :=
  let nland := Y.length
  let s := (bspline_gen_s nland params.spline_min_neval).1
  let stk := (bspline_eval s Y).1
  let dist := dist_along_traj stk
  min params.spline_max_neval
    (max params.spline_min_neval ⌈dist / (params.spline_grain : ℝ)⌉₊)

/-- `get_stk_from_bspline(Y, neval)`: if `neval` is `None` it is chosen
adaptively from the arc length; then the trajectory is the spline evaluated
at `bspline_gen_s nland neval`. -/
noncomputable def get_stk_from_bspline (params : Params) (Y : List (ℚ × ℚ))
    (neval : Option ℕ) : List (ℚ × ℚ) :=
  let nland := Y.length
  let n := match neval with
    | some k => k
    | none => adaptive_neval params Y
  (bspline_eval (bspline_gen_s nland n).1 Y).1

/-! ## relation.py -/

/-- The allowed relation categories (`categories_allowed` in the source). -/
inductive Category where
  | unihist
  | start
  | stop
  | mid
  deriving DecidableEq

/-- A previous-part reference as `get_attach_point` reads it: `motor` is an
ordered sequence of sub-trajectories (each a sequence of 2-D points);
`motor_spline` is the fitted `(nland, 2, nsub)` control-point tensor,
modelled as the list of its `(nland, 2)` slices `[:, :, subix]`. -/
structure PartToken where
  motor : List (List (ℚ × ℚ))
  motor_spline : List (List (ℚ × ℚ))

/-- The `Relation` class hierarchy as a tagged union.
`independent` is `RelationIndependent` (category `unihist`, fixed `gpos`);
`attach` is a plain `RelationAttach` (the constructor allows categories
`start`, `end`, `mid`, but only `start`/`end` instances implement
attach-point lookup); `attachAlong` is `RelationAttachAlong` (category
`mid`) with its sub-stroke index, `ncpt` from the library, and the
token-level Normal(eval_spot, sigma_attach) distribution parameters. -/
inductive Relation where
  | independent (gpos : ℚ × ℚ)
  | attach (cat : Category) (attach_ix : ℕ)
  | attachAlong (attach_ix attach_subix ncpt : ℕ) (eval_spot sigma_attach : ℝ)

/-- The `category` attribute of a relation. -/
def Relation.category : Relation → Category
  | .independent _ => .unihist
  | .attach c _ => c
  | .attachAlong _ _ _ _ _ => .mid

/-- The category-specific payload of a `RelationToken`: categories other
than `mid` carry no extra state, `mid` tokens carry the sampled eval spot
(`eval_spot_token`). -/
inductive RTokenData where
  | basic
  | withSpot (v : ℚ)

/-- A `RelationToken`: the relation it instantiates plus the
category-specific payload. -/
structure RelationToken where
  rel : Relation
  data : RTokenData

/-- `RelationToken.get_attach_point(prev_parts)`.  Python sequence lookups
(`prev_parts[ix]`, `motor[0]`, `motor[-1]`, `motor_spline[:, :, subix]`)
raise on out-of-range access; `none` models such a lookup failure (and the
attribute error of a plain `attach` relation tagged `mid`, which has no
`attach_subix`). -/
def RelationToken.get_attach_point (t : RelationToken)
    (prev_parts : List PartToken) : Option (ℚ × ℚ) :=
  match t.rel with
  | .independent gpos => some gpos
  | .attach c ix =>
    match prev_parts.get? ix with
    | none => none
    | some prev =>
      match c with
      | .start => prev.motor.head?.bind List.head?
      | .stop => prev.motor.getLast?.bind List.getLast?
      | _ => none
  | .attachAlong ix subix _ _ _ =>
    match prev_parts.get? ix with
    | none => none
    | some prev =>
      match prev.motor_spline.get? subix, t.data with
      | some bspline, .withSpot v => ((bspline_eval [v] bspline).1).head?
      | _, _ => none

/-- The Normal log-density `torch.distributions.Normal(μ, σ).log_prob(x)`:
`-((x - μ)^2) / (2 σ^2) - log σ - log √(2π)`. -/
noncomputable def normal_log_prob (μ σ x : ℝ) : ℝ :=
  -((x - μ)^2) / (2 * σ^2) - Real.log σ - Real.log (Real.sqrt (2 * Real.pi))

/-- The Normal CDF `torch.distributions.Normal(μ, σ).cdf(x)`: the mass the
Normal density places on `(-∞, x]`. -/
noncomputable def normal_cdf (μ σ x : ℝ) : ℝ :=
  ∫ t in Set.Iic x, Real.exp (-((t - μ)^2) / (2 * σ^2)) / (σ * Real.sqrt (2 * Real.pi))

/-- `RelationAttachAlong.score_eval_spot_token(v)` with library parameters
`ncpt`, `eval_spot` (the Normal mean) and `sigma_attach` (its std-dev):
obtain `lb, ub` from `bspline_gen_s(ncpt, 1)`; if `v < lb` or `v > ub`
return `-inf` (modelled as `none`); otherwise the Normal log-density at `v`
minus `log(cdf(ub) - cdf(lb))`. -/
noncomputable def score_eval_spot_token (ncpt : ℕ) (eval_spot sigma_attach : ℝ)
    (v : ℚ) : Option ℝ :=
  if v < (bspline_gen_s ncpt 1).2.1 ∨ v > (bspline_gen_s ncpt 1).2.2 then none
  else some (normal_log_prob eval_spot sigma_attach (v : ℝ) -
    Real.log (normal_cdf eval_spot sigma_attach
        (((bspline_gen_s ncpt 1).2.2 : ℚ) : ℝ) -
      normal_cdf eval_spot sigma_attach (((bspline_gen_s ncpt 1).2.1 : ℚ) : ℝ)))

/-- The boundary test of `score_eval_spot_token` in isolation: `true` iff
the value lies inside `[lb, ub] = [2, ncpt + 1]`. -/
def spot_in_bounds (ncpt : ℕ) (v : ℚ) : Bool :=
  ¬(v < (bspline_gen_s ncpt 1).2.1 ∨ v > (bspline_gen_s ncpt 1).2.2)

/-- The score is `-inf` (`none`) exactly when the value fails the boundary
test. -/
theorem score_eval_spot_token_eq_none_iff (ncpt : ℕ) (μ σ : ℝ) (v : ℚ) :
    score_eval_spot_token ncpt μ σ v = none ↔ spot_in_bounds ncpt v = false := by
  unfold score_eval_spot_token spot_in_bounds
  by_cases h : v < (bspline_gen_s ncpt 1).2.1 ∨ v > (bspline_gen_s ncpt 1).2.2 <;>
    simp [h]

instance (ncpt : ℕ) (μ σ : ℝ) (v : ℚ) :
    Decidable (score_eval_spot_token ncpt μ σ v = none) :=
  decidable_of_iff _ (score_eval_spot_token_eq_none_iff ncpt μ σ v).symm

/-- `RelationAttachAlong.sample_eval_spot_token`: repeatedly draw from the
Normal, redrawing while the score is `-inf`.  The external randomness
source is modelled as the stream `draws` of proposed values; the loop
returns the first proposal whose score is not `-inf`, and terminates
exactly when such a proposal exists (hypothesis `h`). -/
def sample_eval_spot_token (ncpt : ℕ) (μ σ : ℝ) (draws : ℕ → ℚ)
    (h : ∃ n, ¬score_eval_spot_token ncpt μ σ (draws n) = none) : ℚ :=
  draws (Nat.find h)

/-- `RelationAttachAlong.sample_token`: samples an eval spot token and
wraps it in a `RelationToken`. -/
def sample_token_along (attach_ix attach_subix ncpt : ℕ) (μ σ : ℝ)
    (draws : ℕ → ℚ)
    (h : ∃ n, ¬score_eval_spot_token ncpt μ σ (draws n) = none) : RelationToken :=
  { rel := .attachAlong attach_ix attach_subix ncpt μ σ
    data := .withSpot (sample_eval_spot_token ncpt μ σ draws h) }

/-- `score_token`: the base-class `Relation.score_token` returns the scalar
`0.` and is inherited by `RelationIndependent` and plain `RelationAttach`;
`RelationAttachAlong` overrides it to score the token's eval spot (after
asserting the token has one — `none` models the assertion failure of a
`mid` relation scoring a spotless token). -/
noncomputable def Relation.score_token (r : Relation) (d : RTokenData) : Option ℝ :=
  match r with
  | .attachAlong _ _ ncpt μ σ =>
    match d with
    | .withSpot v => score_eval_spot_token ncpt μ σ v
    | .basic => none
  | _ => some 0

/-! ## Helper lemmas -/

/-- Index lookup (with default) into a map over `List.range`. -/
theorem range_map_getD (f : ℕ → ℚ) (k j : ℕ) (hj : j < k) :
    ((List.range k).map f).getD j 0 = f j := by
  simp [List.getD, List.getElem?_map, List.getElem?_range hj]

/-- Head of a map over a nonempty `List.range`. -/
theorem range_map_head (f : ℕ → ℚ) (k : ℕ) (hk : 0 < k) :
    ((List.range k).map f).head? = some (f 0) := by
  rw [List.head?_eq_getElem?]
  simp [List.getElem?_map, List.getElem?_range hk]

/-- Last element of a map over a nonempty `List.range`. -/
theorem range_map_getLast (f : ℕ → ℚ) (k : ℕ) (hk : 0 < k) :
    ((List.range k).map f).getLast? = some (f (k - 1)) := by
  rw [List.getLast?_eq_getElem?]
  have h : k - 1 < k := by omega
  simp [List.getElem?_map, List.getElem?_range h]

/-- The sequential-mask implementation agrees with the spec's four
disjoint half-open sub-ranges of `d = s - i`. -/
theorem bspline_coeff_eq_spec (vi vs : ℚ) :
    bspline_coeff vi vs = bspline_basis_spec vi vs := by
  unfold bspline_coeff bspline_basis_spec
  by_cases c4 : vi + 3 ≤ vs ∧ vs < vi + 4
  · rw [if_pos c4, if_neg (by rintro ⟨_, h⟩; linarith [c4.1]),
      if_neg (by rintro ⟨_, h⟩; linarith [c4.1]),
      if_neg (by rintro ⟨_, h⟩; linarith [c4.1]),
      if_pos ⟨by linarith [c4.1], by linarith [c4.2]⟩]
  · by_cases c3 : vi + 2 ≤ vs ∧ vs < vi + 3
    · rw [if_neg c4, if_pos c3, if_neg (by rintro ⟨_, h⟩; linarith [c3.1]),
        if_neg (by rintro ⟨_, h⟩; linarith [c3.1]),
        if_pos ⟨by linarith [c3.1], by linarith [c3.2]⟩]
    · by_cases c2 : vi + 1 ≤ vs ∧ vs < vi + 2
      · rw [if_neg c4, if_neg c3, if_pos c2,
          if_neg (by rintro ⟨_, h⟩; linarith [c2.1]),
          if_pos ⟨by linarith [c2.1], by linarith [c2.2]⟩]
      · by_cases c1 : vi ≤ vs ∧ vs < vi + 1
        · rw [if_neg c4, if_neg c3, if_neg c2, if_pos c1,
            if_pos ⟨by linarith [c1.1], by linarith [c1.2]⟩]
        · rw [if_neg c4, if_neg c3, if_neg c2, if_neg c1,
            if_neg (by rintro ⟨h1, h2⟩; exact c1 ⟨by linarith, by linarith⟩),
            if_neg (by rintro ⟨h1, h2⟩; exact c2 ⟨by linarith, by linarith⟩),
            if_neg (by rintro ⟨h1, h2⟩; exact c3 ⟨by linarith, by linarith⟩),
            if_neg (by rintro ⟨h1, h2⟩; exact c4 ⟨by linarith, by linarith⟩)]

/-! ## Claims -/

/-- C7: for every `nland`, `bspline_gen_s(nland, 1)` returns the single
value `2` (the lower bound), and for every `k ≥ 2`, `bspline_gen_s(nland,
k)` returns `k` evenly spaced values whose first element equals `2` and
whose last element equals `nland + 1`, together with `lb = 2` and
`ub = nland + 1`. -/
theorem claim_C7 (nland k : ℕ) (hk : 2 ≤ k) :
    (bspline_gen_s nland 1).1 = [2] ∧
    (bspline_gen_s nland k).2.1 = 2 ∧
    (bspline_gen_s nland k).2.2 = (nland : ℚ) + 1 ∧
    ((bspline_gen_s nland k).1).length = k ∧
    ((bspline_gen_s nland k).1).head? = some 2 ∧
    ((bspline_gen_s nland k).1).getLast? = some ((nland : ℚ) + 1) ∧
    ∀ j, j + 1 < k →
      ((bspline_gen_s nland k).1).getD (j + 1) 0 -
        ((bspline_gen_s nland k).1).getD j 0 =
        ((nland : ℚ) + 1 - 2) / ((k : ℚ) - 1) := by
  have hk1 : k ≠ 1 := by omega
  have h0 : 0 < k := by omega
  have hkq : (1 : ℚ) < (k : ℚ) := by exact_mod_cast (by omega : 1 < k)
  have hdq : ((k : ℚ) - 1) ≠ 0 := sub_ne_zero.mpr (ne_of_gt hkq)
  refine ⟨by simp [bspline_gen_s], ?_, ?_, ?_, ?_, ?_, ?_⟩ <;>
    simp only [bspline_gen_s, if_neg hk1]
  · simp
  · rw [range_map_head _ _ h0]; simp
  · rw [range_map_getLast _ _ h0]
    have hc : ((k - 1 : ℕ) : ℚ) = (k : ℚ) - 1 := by
      push_cast [Nat.cast_sub (by omega : 1 ≤ k)]; ring
    rw [hc]
    field_simp
  · intro j hj
    rw [range_map_getD _ _ _ hj, range_map_getD _ _ _ (by omega : j < k)]
    push_cast
    field_simp
    ring

/-- Witness for C7 at `nland = 3`, `k = 4`. -/
theorem claim_C7_witness :
    2 ≤ 4 ∧
    ((bspline_gen_s 3 1).1 = [2] ∧
     (bspline_gen_s 3 4).2.1 = 2 ∧
     (bspline_gen_s 3 4).2.2 = ((3 : ℕ) : ℚ) + 1 ∧
     ((bspline_gen_s 3 4).1).length = 4 ∧
     ((bspline_gen_s 3 4).1).head? = some 2 ∧
     ((bspline_gen_s 3 4).1).getLast? = some (((3 : ℕ) : ℚ) + 1) ∧
     ∀ j, j + 1 < 4 →
       ((bspline_gen_s 3 4).1).getD (j + 1) 0 -
         ((bspline_gen_s 3 4).1).getD j 0 =
         (((3 : ℕ) : ℚ) + 1 - 2) / (((4 : ℕ) : ℚ) - 1)) :=
  ⟨by decide, claim_C7 3 4 (by decide)⟩

/-- C4: each entry of `vectorized_bspline_coeff(I, S)` is exactly `0` when
`d = S - I` lies outside `[0, 4)`, and within each of the four disjoint
half-open sub-ranges `[0,1)`, `[1,2)`, `[2,3)`, `[3,4)` it equals the
corresponding standard uniform cubic B-spline piecewise cubic polynomial
in the local offset, scaled by `1/6` (the piecewise function
`bspline_basis_spec`). -/
theorem claim_C4 (I S : List (List ℚ)) (r c : ℕ) (a b : ℚ)
    (ha : ((I.get? r).bind fun row => row.get? c) = some a)
    (hb : ((S.get? r).bind fun row => row.get? c) = some b) :
    (((vectorized_bspline_coeff I S).get? r).bind fun row => row.get? c) =
      some (bspline_basis_spec a b) ∧
    (¬(0 ≤ b - a ∧ b - a < 4) → bspline_basis_spec a b = 0) := by
  obtain ⟨rowI, hrI, haI⟩ : ∃ row, I.get? r = some row ∧ row.get? c = some a := by
    cases h : I.get? r with
    | none => rw [h] at ha; exact absurd ha (by simp)
    | some row => rw [h] at ha; exact ⟨row, rfl, ha⟩
  obtain ⟨rowS, hrS, hbS⟩ : ∃ row, S.get? r = some row ∧ row.get? c = some b := by
    cases h : S.get? r with
    | none => rw [h] at hb; exact absurd hb (by simp)
    | some row => rw [h] at hb; exact ⟨row, rfl, hb⟩
  constructor
  · have hz : (vectorized_bspline_coeff I S).get? r =
        some (List.zipWith bspline_coeff rowI rowS) :=
      (List.get?_zipWith_eq_some _ _ _ _ _).mpr ⟨rowI, rowS, hrI, hrS, rfl⟩
    rw [hz]
    exact (List.get?_zipWith_eq_some _ _ _ _ _).mpr
      ⟨a, b, haI, hbS, bspline_coeff_eq_spec a b⟩
  · intro h
    unfold bspline_basis_spec
    rw [if_neg (by rintro ⟨h1, h2⟩; exact h ⟨h1, by linarith⟩),
      if_neg (by rintro ⟨h1, h2⟩; exact h ⟨by linarith, by linarith⟩),
      if_neg (by rintro ⟨h1, h2⟩; exact h ⟨by linarith, by linarith⟩),
      if_neg (by rintro ⟨h1, h2⟩; exact h ⟨by linarith, h2⟩)]

/-- Witness for C4 at the 1×1 matrices `I = [[0]]`, `S = [[2]]`. -/
theorem claim_C4_witness :
    (((([[(0 : ℚ)]] : List (List ℚ)).get? 0).bind fun row => row.get? 0) =
      some 0) ∧
    (((([[(2 : ℚ)]] : List (List ℚ)).get? 0).bind fun row => row.get? 0) =
      some 2) ∧
    ((((vectorized_bspline_coeff [[0]] [[2]]).get? 0).bind
        fun row => row.get? 0) = some (bspline_basis_spec 0 2) ∧
     (¬(0 ≤ (2 : ℚ) - 0 ∧ (2 : ℚ) - 0 < 4) → bspline_basis_spec 0 2 = 0)) :=
  ⟨rfl, rfl, claim_C4 [[0]] [[2]] 0 0 0 2 rfl rfl⟩

/-- C10: for every Relation whose category is `unihist`, `start` or `end`,
`score_token(token)` returns exactly the scalar `0` for every token,
regardless of the token's contents (only `RelationAttachAlong` overrides
the base method to score the eval spot). -/
theorem claim_C10 (r : Relation) (d : RTokenData)
    (h : r.category = .unihist ∨ r.category = .start ∨ r.category = .stop) :
    Relation.score_token r d = some 0 := by
  cases r with
  | independent gpos => rfl
  | attach c ix => rfl
  | attachAlong ix subix ncpt μ σ => simp [Relation.category] at h

/-- Witness for C10 at a `unihist` relation with a plain token. -/
theorem claim_C10_witness :
    ((Relation.independent (0, 0)).category = .unihist ∨
     (Relation.independent (0, 0)).category = .start ∨
     (Relation.independent (0, 0)).category = .stop) ∧
    Relation.score_token (.independent (0, 0)) .basic = some 0 :=
  ⟨by decide, claim_C10 (.independent (0, 0)) .basic (by decide)⟩

/-- C6: `get_attach_point` resolves the simple lookup categories: for
`unihist` it returns the stored `gpos` without reading `prev_parts`; for
`start` the first point of the first sub-trajectory of
`prev_parts[attach_ix].motor`; for `end` the last point of the last
sub-trajectory. -/
theorem claim_C6 (prev_parts : List PartToken) :
    (∀ gpos d, RelationToken.get_attach_point ⟨.independent gpos, d⟩ prev_parts
      = some gpos) ∧
    (∀ ix d p st pt, prev_parts[ix]? = some p →
      p.motor.head? = some st → st.head? = some pt →
      RelationToken.get_attach_point ⟨.attach .start ix, d⟩ prev_parts = some pt) ∧
    (∀ ix d p st pt, prev_parts[ix]? = some p →
      p.motor.getLast? = some st → st.getLast? = some pt →
      RelationToken.get_attach_point ⟨.attach .stop ix, d⟩ prev_parts = some pt) := by
  refine ⟨fun gpos d => rfl, ?_, ?_⟩
  · intro ix d p st pt hp hm hs
    simp [RelationToken.get_attach_point, hp, hm, hs]
  · intro ix d p st pt hp hm hs
    simp [RelationToken.get_attach_point, hp, hm, hs]

/-- Witness for C6: a `start` attachment to a one-part list whose first
sub-trajectory begins at `(1, 1)`. -/
theorem claim_C6_witness :
    (([⟨[[(1, 1), (2, 2)], [(3, 3), (4, 4)]], []⟩] : List PartToken)[0]? =
      some ⟨[[(1, 1), (2, 2)], [(3, 3), (4, 4)]], []⟩) ∧
    ((⟨[[(1, 1), (2, 2)], [(3, 3), (4, 4)]], []⟩ : PartToken).motor.head? =
      some [(1, 1), (2, 2)]) ∧
    (([(1, 1), (2, 2)] : List (ℚ × ℚ)).head? = some (1, 1)) ∧
    RelationToken.get_attach_point ⟨.attach .start 0, .basic⟩
      [⟨[[(1, 1), (2, 2)], [(3, 3), (4, 4)]], []⟩] = some (1, 1) :=
  ⟨rfl, rfl, rfl,
    (claim_C6 [⟨[[(1, 1), (2, 2)], [(3, 3), (4, 4)]], []⟩]).2.1
      0 .basic _ [(1, 1), (2, 2)] (1, 1) rfl rfl rfl⟩

/-- C5: for a `mid` relation token, `get_attach_point` returns exactly the
Spline Evaluator applied at the token's eval-spot scalar to the control
points `prev_parts[attach_ix].motor_spline[:, :, attach_subix]`, with the
`(1, 2)` result squeezed to a single 2-D point. -/
theorem claim_C5 (prev_parts : List PartToken) (ix subix ncpt : ℕ) (μ σ : ℝ)
    (v : ℚ) (p : PartToken) (Y : List (ℚ × ℚ))
    (hp : prev_parts[ix]? = some p)
    (hY : p.motor_spline[subix]? = some Y) :
    RelationToken.get_attach_point
        ⟨.attachAlong ix subix ncpt μ σ, .withSpot v⟩ prev_parts =
      some (bspline_X_row (bspline_cof_row v Y.length) Y) ∧
    (bspline_eval [v] Y).1 = [bspline_X_row (bspline_cof_row v Y.length) Y] := by
  constructor
  · simp [RelationToken.get_attach_point, hp, hY, bspline_eval]
  · rfl

/-- Witness for C5: a 5-landmark control-point set with eval spot `3`. -/
theorem claim_C5_witness :
    (([⟨[], [[(0, 0), (1, 1), (2, 0), (3, 1), (4, 0)]]⟩] : List PartToken)[0]? =
      some ⟨[], [[(0, 0), (1, 1), (2, 0), (3, 1), (4, 0)]]⟩) ∧
    ((⟨[], [[(0, 0), (1, 1), (2, 0), (3, 1), (4, 0)]]⟩ : PartToken).motor_spline[0]? =
      some [(0, 0), (1, 1), (2, 0), (3, 1), (4, 0)]) ∧
    (RelationToken.get_attach_point
        ⟨.attachAlong 0 0 5 0 1, .withSpot 3⟩
        [⟨[], [[(0, 0), (1, 1), (2, 0), (3, 1), (4, 0)]]⟩] =
      some (bspline_X_row
        (bspline_cof_row 3
          ([(0, 0), (1, 1), (2, 0), (3, 1), (4, 0)] : List (ℚ × ℚ)).length)
        [(0, 0), (1, 1), (2, 0), (3, 1), (4, 0)]) ∧
     (bspline_eval [3] [(0, 0), (1, 1), (2, 0), (3, 1), (4, 0)]).1 =
      [bspline_X_row
        (bspline_cof_row 3
          ([(0, 0), (1, 1), (2, 0), (3, 1), (4, 0)] : List (ℚ × ℚ)).length)
        [(0, 0), (1, 1), (2, 0), (3, 1), (4, 0)]]) :=
  ⟨rfl, rfl,
    claim_C5 [⟨[], [[(0, 0), (1, 1), (2, 0), (3, 1), (4, 0)]]⟩]
      0 0 5 0 1 3 _ _ rfl rfl⟩

/-- C2: `score_eval_spot_token(v)` returns `-inf` (`none`) if and only if
`v` lies outside the closed interval `[lb, ub] = [2, ncpt + 1]` produced by
`bspline_gen_s(ncpt, 1)`; for `lb ≤ v ≤ ub` it returns the
Normal(eval_spot, sigma_attach) log-density at `v` minus the log of the
mass the Normal places inside `[lb, ub]`, a finite (`some`) value. -/
theorem claim_C2 (ncpt : ℕ) (μ σ : ℝ) (v : ℚ) :
    (bspline_gen_s ncpt 1).2.1 = 2 ∧
    (bspline_gen_s ncpt 1).2.2 = (ncpt : ℚ) + 1 ∧
    (score_eval_spot_token ncpt μ σ v = none ↔ v < 2 ∨ v > (ncpt : ℚ) + 1) ∧
    (2 ≤ v → v ≤ (ncpt : ℚ) + 1 →
      score_eval_spot_token ncpt μ σ v =
        some (normal_log_prob μ σ (v : ℝ) -
          Real.log (normal_cdf μ σ (((ncpt : ℚ) + 1 : ℚ) : ℝ) -
            normal_cdf μ σ ((2 : ℚ) : ℝ)))) := by
  refine ⟨rfl, rfl, ?_, ?_⟩
  · by_cases h : v < 2 ∨ v > (ncpt : ℚ) + 1
    · unfold score_eval_spot_token
      rw [if_pos (by exact h)]
      simp [h]
    · unfold score_eval_spot_token
      rw [if_neg (by exact h)]
      simp [h]
  · intro h1 h2
    unfold score_eval_spot_token
    rw [if_neg (by push_neg; exact ⟨by exact h1, by exact h2⟩)]
    rfl

/-- Witness for C2 at `ncpt = 2`, standard-Normal parameters, `v = 5/2`. -/
theorem claim_C2_witness :
    (2 : ℚ) ≤ 5/2 ∧ (5/2 : ℚ) ≤ ((2 : ℕ) : ℚ) + 1 ∧
    score_eval_spot_token 2 0 1 (5/2) =
      some (normal_log_prob 0 1 ((5/2 : ℚ) : ℝ) -
        Real.log (normal_cdf 0 1 ((((2 : ℕ) : ℚ) + 1 : ℚ) : ℝ) -
          normal_cdf 0 1 ((2 : ℚ) : ℝ))) :=
  ⟨by norm_num, by norm_num,
    (claim_C2 2 0 1 (5/2)).2.2.2 (by norm_num) (by norm_num)⟩

/-- C3: whenever `sample_eval_spot_token` terminates (the draw stream
contains an in-bounds proposal), the returned eval spot has a finite score
and lies inside `[lb, ub]`; consequently every token built by
`RelationAttachAlong.sample_token` scores finitely under `score_token`. -/
theorem claim_C3 (ncpt : ℕ) (μ σ : ℝ) (draws : ℕ → ℚ)
    (h : ∃ n, ¬score_eval_spot_token ncpt μ σ (draws n) = none) :
    score_eval_spot_token ncpt μ σ (sample_eval_spot_token ncpt μ σ draws h) ≠ none ∧
    (bspline_gen_s ncpt 1).2.1 ≤ sample_eval_spot_token ncpt μ σ draws h ∧
    sample_eval_spot_token ncpt μ σ draws h ≤ (bspline_gen_s ncpt 1).2.2 ∧
    ∀ aix subix,
      Relation.score_token (sample_token_along aix subix ncpt μ σ draws h).rel
        (sample_token_along aix subix ncpt μ σ draws h).data ≠ none := by
  have hs : score_eval_spot_token ncpt μ σ
      (sample_eval_spot_token ncpt μ σ draws h) ≠ none := Nat.find_spec h
  have hb : ¬(sample_eval_spot_token ncpt μ σ draws h < (bspline_gen_s ncpt 1).2.1 ∨
      sample_eval_spot_token ncpt μ σ draws h > (bspline_gen_s ncpt 1).2.2) := by
    intro hcon
    exact hs (by unfold score_eval_spot_token; rw [if_pos hcon])
  push_neg at hb
  exact ⟨hs, hb.1, hb.2, fun aix subix => hs⟩

/-- Witness for C3: a constant draw stream proposing `5/2` with
`ncpt = 2`. -/
theorem claim_C3_witness :
    score_eval_spot_token 2 0 1
      (sample_eval_spot_token 2 0 1 (fun _ => 5/2)
        ⟨0, by norm_num [score_eval_spot_token, bspline_gen_s]; simp⟩) ≠ none :=
  (claim_C3 2 0 1 (fun _ => 5/2)
    ⟨0, by norm_num [score_eval_spot_token, bspline_gen_s]; simp⟩).1

/-- Folding IEEE addition from a non-finite accumulator stays
non-finite. -/
theorem foldl_add_ieee_none (l : List (Option ℚ)) :
    l.foldl add_ieee none = none := by
  induction l with
  | nil => rfl
  | cons a t ih =>
    have ha : add_ieee none a = none := by cases a <;> rfl
    simpa [List.foldl, ha] using ih

/-- A dot product against an all-non-finite nonempty coefficient row is
non-finite. -/
theorem zip_fold_ieee_none (cof : List (Option ℚ)) (L : List (ℚ × ℚ))
    (f : ℚ × ℚ → ℚ) (hall : ∀ c ∈ cof, c = none) (hne : cof ≠ [])
    (hLne : L ≠ []) :
    (List.zipWith (fun c y => mul_ieee c (f y)) cof L).foldl add_ieee (some 0)
      = none := by
  cases cof with
  | nil => exact absurd rfl hne
  | cons c t =>
    cases L with
    | nil => exact absurd rfl hLne
    | cons y ys =>
      have hc : c = none := hall c (by simp)
      subst hc
      have hm : mul_ieee none (f y) = none := rfl
      have ha : add_ieee (some 0) none = none := rfl
      simp only [List.zipWith, List.foldl, hm, ha]
      exact foldl_add_ieee_none _

/-- C9: for a parameter `v` outside the support `[0, nland + 3)` of every
basis function (e.g. any `v < 0`), the raw coefficient row in
`bspline_eval` is all zeros, its row sum is `0`, the unguarded
normalization divides by that zero sum so every `Cof` entry is non-finite
(NaN), and the trajectory row is non-finite instead of a raised validation
error. -/
theorem claim_C9 (nland : ℕ) (v : ℚ) (Y : List (ℚ × ℚ))
    (h1 : 1 ≤ nland) (hY : Y.length = nland)
    (hv : v < 0 ∨ (nland : ℚ) + 3 ≤ v) :
    (∀ a ∈ bspline_A_row v nland, a = 0) ∧
    (bspline_A_row v nland).sum = 0 ∧
    (∀ c ∈ bspline_cof_row_ieee v nland, c = none) ∧
    bspline_cof_row_ieee v nland ≠ [] ∧
    bspline_X_row_ieee (bspline_cof_row_ieee v nland) Y = (none, none) := by
  have hzero : ∀ a ∈ bspline_A_row v nland, a = 0 := by
    intro a ha
    obtain ⟨i, hi, rfl⟩ := List.mem_map.mp ha
    have hi0 : (0 : ℚ) ≤ (i : ℚ) := Nat.cast_nonneg i
    have hiu : (i : ℚ) + 1 ≤ (nland : ℚ) := by
      exact_mod_cast Nat.succ_le_of_lt (List.mem_range.mp hi)
    rcases hv with hneg | hbig
    · unfold bspline_coeff
      rw [if_neg (by rintro ⟨hc, _⟩; linarith),
        if_neg (by rintro ⟨hc, _⟩; linarith),
        if_neg (by rintro ⟨hc, _⟩; linarith),
        if_neg (by rintro ⟨hc, _⟩; linarith)]
    · unfold bspline_coeff
      rw [if_neg (by rintro ⟨_, hc⟩; linarith),
        if_neg (by rintro ⟨_, hc⟩; linarith),
        if_neg (by rintro ⟨_, hc⟩; linarith),
        if_neg (by rintro ⟨_, hc⟩; linarith)]
  have hsum : (bspline_A_row v nland).sum = 0 := List.sum_eq_zero hzero
  have hcof : ∀ c ∈ bspline_cof_row_ieee v nland, c = none := by
    intro c hc
    obtain ⟨a, _, rfl⟩ := List.mem_map.mp hc
    unfold qdiv_ieee
    rw [if_pos hsum]
  have hlen : (bspline_cof_row_ieee v nland).length = nland := by
    simp [bspline_cof_row_ieee, bspline_A_row]
  have hne : bspline_cof_row_ieee v nland ≠ [] := by
    intro hnil
    rw [hnil] at hlen
    simp at hlen
    omega
  have hYne : Y ≠ [] := by
    intro hnil
    rw [hnil] at hY
    simp at hY
    omega
  refine ⟨hzero, hsum, hcof, hne, ?_⟩
  unfold bspline_X_row_ieee
  rw [zip_fold_ieee_none _ _ _ hcof hne hYne,
    zip_fold_ieee_none _ _ _ hcof hne hYne]

/-- Witness for C9 at `nland = 1`, `v = -1`, a single control point. -/
theorem claim_C9_witness :
    (1 : ℕ) ≤ 1 ∧ ([((0 : ℚ), (0 : ℚ))].length = 1) ∧
    ((-1 : ℚ) < 0 ∨ ((1 : ℕ) : ℚ) + 3 ≤ -1) ∧
    ((∀ a ∈ bspline_A_row (-1) 1, a = 0) ∧
     (bspline_A_row (-1) 1).sum = 0 ∧
     (∀ c ∈ bspline_cof_row_ieee (-1) 1, c = none) ∧
     bspline_cof_row_ieee (-1) 1 ≠ [] ∧
     bspline_X_row_ieee (bspline_cof_row_ieee (-1) 1) [(0, 0)] = (none, none)) :=
  ⟨by decide, by decide, by norm_num,
    claim_C9 1 (-1) [(0, 0)] (by decide) (by decide) (by norm_num)⟩

/-- Every parameter vector produced by `bspline_gen_s` has exactly `neval`
entries. -/
theorem bspline_gen_s_length (nland k : ℕ) :
    ((bspline_gen_s nland k).1).length = k := by
  unfold bspline_gen_s
  by_cases h : k = 1
  · subst h; simp
  · rw [if_neg h]; simp

/-- The trajectory returned by `bspline_eval` has one row per parameter
value. -/
theorem bspline_eval_length (s : List ℚ) (Y : List (ℚ × ℚ)) :
    ((bspline_eval s Y).1).length = s.length := by
  simp [bspline_eval]

/-- C8: with `neval` omitted, `get_stk_from_bspline` uses the sample count
`ceil(dist / spline_grain)` clamped into `[spline_min_neval,
spline_max_neval]`, where `dist` is the arc length of the trajectory at
`spline_min_neval` reference samples; the returned trajectory is the
spline re-evaluated at that clamped count, so its row count lies between
the two bounds. -/
theorem claim_C8 (params : Params) (Y : List (ℚ × ℚ))
    (hmm : params.spline_min_neval ≤ params.spline_max_neval) :
    get_stk_from_bspline params Y none =
      (bspline_eval (bspline_gen_s Y.length (adaptive_neval params Y)).1 Y).1 ∧
    adaptive_neval params Y =
      min params.spline_max_neval
        (max params.spline_min_neval
          ⌈dist_along_traj
              (bspline_eval
                (bspline_gen_s Y.length params.spline_min_neval).1 Y).1 /
            (params.spline_grain : ℝ)⌉₊) ∧
    params.spline_min_neval ≤ (get_stk_from_bspline params Y none).length ∧
    (get_stk_from_bspline params Y none).length ≤ params.spline_max_neval := by
  have h1 : get_stk_from_bspline params Y none =
      (bspline_eval (bspline_gen_s Y.length (adaptive_neval params Y)).1 Y).1 := rfl
  have h2 : adaptive_neval params Y =
      min params.spline_max_neval
        (max params.spline_min_neval
          ⌈dist_along_traj
              (bspline_eval
                (bspline_gen_s Y.length params.spline_min_neval).1 Y).1 /
            (params.spline_grain : ℝ)⌉₊) := rfl
  have hlen : (get_stk_from_bspline params Y none).length =
      adaptive_neval params Y := by
    rw [h1, bspline_eval_length, bspline_gen_s_length]
  refine ⟨h1, h2, ?_, ?_⟩
  · rw [hlen, h2]
    exact le_min hmm (le_max_left _ _)
  · rw [hlen, h2]
    exact min_le_left _ _

/-- Witness for C8: bounds `[3, 5]`, grain `1`, a degenerate two-point
spline. -/
theorem claim_C8_witness :
    (3 : ℕ) ≤ 5 ∧
    3 ≤ (get_stk_from_bspline ⟨3, 5, 1⟩ [(0, 0), (0, 0)] none).length ∧
    (get_stk_from_bspline ⟨3, 5, 1⟩ [(0, 0), (0, 0)] none).length ≤ 5 :=
  ⟨by decide, (claim_C8 ⟨3, 5, 1⟩ [(0, 0), (0, 0)] (by decide)).2.2.1,
    (claim_C8 ⟨3, 5, 1⟩ [(0, 0), (0, 0)] (by decide)).2.2.2⟩

/-- Every basis coefficient is non-negative. -/
theorem bspline_coeff_nonneg (vi vs : ℚ) : 0 ≤ bspline_coeff vi vs := by
  unfold bspline_coeff
  split_ifs with h1 h2 h3 h4
  · have ht : (0 : ℚ) ≤ 1 - (vs - vi - 3) := by linarith [h1.2]
    exact div_nonneg (pow_nonneg ht 3) (by norm_num)
  · have ht0 : (0 : ℚ) ≤ vs - vi - 2 := by linarith [h2.1]
    have ht1 : vs - vi - 2 < 1 := by linarith [h2.2]
    apply div_nonneg _ (by norm_num)
    nlinarith [mul_nonneg ht0 (by linarith : (0 : ℚ) ≤ 1 - (vs - vi - 2)),
      mul_nonneg (mul_nonneg ht0 ht0) (by linarith : (0 : ℚ) ≤ 1 - (vs - vi - 2))]
  · have ht0 : (0 : ℚ) ≤ vs - vi - 1 := by linarith [h3.1]
    have ht1 : vs - vi - 1 < 1 := by linarith [h3.2]
    apply div_nonneg _ (by norm_num)
    nlinarith [mul_nonneg (mul_nonneg ht0 ht0)
      (by linarith : (0 : ℚ) ≤ 1 - (vs - vi - 1))]
  · have ht : (0 : ℚ) ≤ vs - vi := by linarith [h4.1]
    exact div_nonneg (pow_nonneg ht 3) (by norm_num)
  · exact le_refl 0

/-- A nonzero basis coefficient forces `s - i ∈ [0, 4)`. -/
theorem bspline_coeff_support (vi vs : ℚ) (h : bspline_coeff vi vs ≠ 0) :
    vi ≤ vs ∧ vs < vi + 4 := by
  unfold bspline_coeff at h
  split_ifs at h with h1 h2 h3 h4
  · exact ⟨by linarith [h1.1], h1.2⟩
  · exact ⟨by linarith [h2.1], by linarith [h2.2]⟩
  · exact ⟨by linarith [h3.1], by linarith [h3.2]⟩
  · exact ⟨h4.1, by linarith [h4.2]⟩
  · exact absurd rfl h

/-- For a parameter inside `[2, nland + 1]` the raw coefficient row has a
strictly positive entry (at landmark index `⌈v⌉ - 2`). -/
theorem bspline_A_row_exists_pos (v : ℚ) (nland : ℕ)
    (hlo : 2 ≤ v) (hhi : v ≤ (nland : ℚ) + 1) :
    ∃ i ∈ List.range nland, 0 < bspline_coeff (i : ℚ) v := by
  have hc2 : (2 : ℤ) ≤ ⌈v⌉ := by
    have hcv := Int.le_ceil v
    exact_mod_cast (by linarith : (2 : ℚ) ≤ (⌈v⌉ : ℚ))
  have hcu : ⌈v⌉ ≤ (nland : ℤ) + 1 := Int.ceil_le.mpr (by exact_mod_cast hhi)
  have hi0z : (((⌈v⌉ - 2).toNat : ℕ) : ℤ) = ⌈v⌉ - 2 :=
    Int.toNat_of_nonneg (by omega)
  have hi0q : (((⌈v⌉ - 2).toNat : ℕ) : ℚ) = (⌈v⌉ : ℚ) - 2 := by
    have hzc : ((((⌈v⌉ - 2).toNat : ℕ) : ℤ) : ℚ) = ((⌈v⌉ - 2 : ℤ) : ℚ) := by
      exact_mod_cast congrArg (fun z : ℤ => (z : ℚ)) hi0z
    push_cast at hzc
    exact hzc
  have hmem : (⌈v⌉ - 2).toNat ∈ List.range nland := by
    refine List.mem_range.mpr ?_
    have hlt : (((⌈v⌉ - 2).toNat : ℕ) : ℤ) < nland := by omega
    exact_mod_cast hlt
  have hd1 : 1 < v - (((⌈v⌉ - 2).toNat : ℕ) : ℚ) := by
    have := Int.ceil_lt_add_one v
    rw [hi0q]; linarith
  have hd2 : v - (((⌈v⌉ - 2).toNat : ℕ) : ℚ) ≤ 2 := by
    have := Int.le_ceil v
    rw [hi0q]; linarith
  refine ⟨(⌈v⌉ - 2).toNat, hmem, ?_⟩
  set w : ℚ := (((⌈v⌉ - 2).toNat : ℕ) : ℚ) with hw
  by_cases hd : v - w < 2
  · unfold bspline_coeff
    rw [if_neg (by rintro ⟨hc, _⟩; linarith),
      if_neg (by rintro ⟨hc, _⟩; linarith),
      if_pos ⟨by linarith, by linarith⟩]
    have ht0 : (0 : ℚ) < v - w - 1 := by linarith
    have ht1 : v - w - 1 < 1 := by linarith
    apply div_pos _ (by norm_num)
    nlinarith [mul_nonneg (mul_nonneg ht0.le ht0.le)
      (by linarith : (0 : ℚ) ≤ 1 - (v - w - 1))]
  · have hdq : v - w = 2 := le_antisymm hd2 (not_lt.mp hd)
    unfold bspline_coeff
    rw [if_neg (by rintro ⟨hc, _⟩; linarith),
      if_pos ⟨by linarith, by linarith⟩]
    have hz : v - w - 2 = 0 := by linarith
    rw [hz]
    norm_num

/-- Every entry of the raw coefficient row is non-negative. -/
theorem bspline_A_row_mem_nonneg (v : ℚ) (nland : ℕ) :
    ∀ x ∈ bspline_A_row v nland, 0 ≤ x := by
  intro x hx
  obtain ⟨i, _, rfl⟩ := List.mem_map.mp hx
  exact bspline_coeff_nonneg _ _

/-- For a parameter inside `[2, nland + 1]` the raw row sum is strictly
positive, so the unguarded normalization is well defined there. -/
theorem bspline_A_row_sum_pos (v : ℚ) (nland : ℕ)
    (hlo : 2 ≤ v) (hhi : v ≤ (nland : ℚ) + 1) :
    0 < (bspline_A_row v nland).sum := by
  obtain ⟨i0, hmem, hpos⟩ := bspline_A_row_exists_pos v nland hlo hhi
  have hmem' : bspline_coeff (i0 : ℚ) v ∈ bspline_A_row v nland :=
    List.mem_map_of_mem (fun i : ℕ => bspline_coeff (i : ℚ) v) hmem
  exact lt_of_lt_of_le hpos
    (List.single_le_sum (bspline_A_row_mem_nonneg v nland) _ hmem')

/-- Dividing every entry of a list by a constant divides its sum. -/
theorem list_sum_map_div (l : List ℚ) (c : ℚ) :
    (l.map (fun a => a / c)).sum = l.sum / c := by
  induction l with
  | nil => simp
  | cons a t ih => simp [ih, add_div]

/-- At most 4 of the raw coefficients in a row are nonzero: the nonzero
indices lie in the length-4 integer window `(v - 4, v]`. -/
theorem bspline_A_row_count (v : ℚ) (nland : ℕ) :
    (List.range nland).countP
      (fun i : ℕ => decide (bspline_coeff (i : ℚ) v ≠ 0)) ≤ 4 := by
  rw [List.countP_eq_length_filter]
  have hnd : ((List.range nland).filter
      (fun i : ℕ => decide (bspline_coeff (i : ℚ) v ≠ 0))).Nodup :=
    (List.nodup_range nland).filter _
  rw [← List.toFinset_card_of_nodup hnd]
  have hmapsto : ∀ i ∈ ((List.range nland).filter
      (fun i : ℕ => decide (bspline_coeff (i : ℚ) v ≠ 0))).toFinset,
      (i : ℤ) ∈ Finset.Icc (⌊v⌋ - 3) ⌊v⌋ := by
    intro i hi
    rw [List.mem_toFinset, List.mem_filter] at hi
    have hne : bspline_coeff (i : ℚ) v ≠ 0 := of_decide_eq_true hi.2
    obtain ⟨hl, hr⟩ := bspline_coeff_support _ _ hne
    rw [Finset.mem_Icc]
    constructor
    · have hfl : ⌊v - ((4 : ℤ) : ℚ)⌋ < (i : ℤ) :=
        Int.floor_lt.mpr (by push_cast; linarith)
      rw [Int.floor_sub_int] at hfl
      omega
    · exact Int.le_floor.mpr (by push_cast; linarith)
  have hinj : Set.InjOn (fun i : ℕ => (i : ℤ))
      (((List.range nland).filter
        (fun i : ℕ => decide (bspline_coeff (i : ℚ) v ≠ 0))).toFinset : Set ℕ) :=
    fun a _ b _ h => Nat.cast_injective h
  have hcard :=
    Finset.card_le_card_of_injOn (fun i : ℕ => (i : ℤ)) hmapsto hinj
  have hIcc : (Finset.Icc (⌊v⌋ - 3) ⌊v⌋).card = 4 := by
    rw [Int.card_Icc]
    omega
  omega

/-- C1: for every parameter vector `s` with entries in `[2, nland + 1]`
and every `(nland, 2)` control-point matrix with `nland ≥ 1`, every row of
the coefficient matrix `Cof` returned by `bspline_eval(s, Y)` has
non-negative entries, sums to exactly `1` (partition of unity), and has at
most `4` nonzero entries. -/
theorem claim_C1 (s : List ℚ) (Y : List (ℚ × ℚ)) (nland : ℕ)
    (hY : Y.length = nland) (h1 : 1 ≤ nland)
    (hs : ∀ v ∈ s, 2 ≤ v ∧ v ≤ (nland : ℚ) + 1) :
    ∀ row ∈ (bspline_eval s Y).2,
      (∀ x ∈ row, 0 ≤ x) ∧ row.sum = 1 ∧
      row.countP (fun x => decide (x ≠ 0)) ≤ 4 := by
  subst hY
  intro row hrow
  have hC : (bspline_eval s Y).2 =
      s.map (fun v => bspline_cof_row v Y.length) := rfl
  rw [hC] at hrow
  obtain ⟨v, hv, rfl⟩ := List.mem_map.mp hrow
  obtain ⟨hlo, hhi⟩ := hs v hv
  have hSpos : 0 < (bspline_A_row v Y.length).sum :=
    bspline_A_row_sum_pos v Y.length hlo hhi
  refine ⟨?_, ?_, ?_⟩
  · intro x hx
    obtain ⟨a, ha, rfl⟩ := List.mem_map.mp hx
    exact div_nonneg (bspline_A_row_mem_nonneg v Y.length a ha) hSpos.le
  · rw [bspline_cof_row, list_sum_map_div, div_self hSpos.ne.symm]
  · rw [bspline_cof_row, bspline_A_row, List.map_map, List.countP_map]
    refine le_trans (List.countP_mono_left ?_) (bspline_A_row_count v Y.length)
    intro i hi hpi
    simp only [Function.comp] at hpi ⊢
    rw [decide_eq_true_iff] at hpi ⊢
    intro hz
    exact hpi (by rw [hz, zero_div])

/-- Witness for C1: the singleton parameter vector `[3]` on a 4-landmark
control-point matrix. -/
theorem claim_C1_witness :
    (([((0 : ℚ), (0 : ℚ)), (1, 1), (2, 0), (3, 1)] : List (ℚ × ℚ)).length = 4) ∧
    (1 ≤ 4) ∧
    (∀ v ∈ ([3] : List ℚ), 2 ≤ v ∧ v ≤ ((4 : ℕ) : ℚ) + 1) ∧
    (∀ row ∈ (bspline_eval [3] [(0, 0), (1, 1), (2, 0), (3, 1)]).2,
      (∀ x ∈ row, 0 ≤ x) ∧ row.sum = 1 ∧
      row.countP (fun x => decide (x ≠ 0)) ≤ 4) :=
  ⟨rfl, by decide,
    by intro v hv; rw [List.mem_singleton] at hv; subst hv;
       constructor <;> norm_num,
    claim_C1 [3] [(0, 0), (1, 1), (2, 0), (3, 1)] 4 rfl (by decide)
      (by intro v hv; rw [List.mem_singleton] at hv; subst hv;
          constructor <;> norm_num)⟩

end PyBPL
